import Mathlib

set_option maxRecDepth 8192

/-!
Verification of the similarity engine of the smart-contracts-dataset-generation
repository (`src/classes/analysis/SolidityComparator.py` and the entry script
`src/scripts/measure_contracts_similarity.py`).

The Python code is shallowly embedded:

* `difflib.SequenceMatcher.ratio` (used by `SolidityComparator.ast_similarity`)
  is embedded by `ratioChars`: the recursive longest-matching-block
  decomposition with difflib's tie-breaking (longest block, then earliest in
  the first string, then earliest in the second).  The autojunk heuristic of
  difflib only activates on strings of length ≥ 200 and is not modelled; all
  concrete strings evaluated here are far shorter, where the embedding agrees
  with difflib exactly.
* `json.dumps(·, sort_keys=True)` is embedded by `dumps` over a `Json` value
  type (objects serialize with keys sorted, separators ", " and ": ").
* `networkx` digraphs are embedded by `Graph` (node list and edge list, both
  deduplicated as a networkx graph stores sets); `nx.DiGraph.size()` is the
  number of edges (`Graph.size`).
* `nx.graph_edit_distance` with its default costs (node/edge substitution
  free, insertion and deletion cost 1) is embedded by `graph_edit_distance`:
  with free substitutions an optimal edit path matches min(|V1|,|V2|) nodes,
  so the distance is the node-count difference plus the minimal edge
  symmetric-difference cost over all injections of the smaller node set into
  the larger one, enumerated here via permutations.
* Exceptions are embedded with `Option`: an extraction or scoring oracle
  returning `none` models the corresponding Python call raising.
-/

namespace SolidityComparator

/-! ## difflib.SequenceMatcher embedding -/

/-- Length of the common prefix of two character lists (the length of the
matching run starting at a given pair of positions). -/
def cpl : List Char → List Char → Nat
  | x :: xs, y :: ys => if x = y then cpl xs ys + 1 else 0
  | _, _ => 0

/-- All candidate starting positions `(i, j)` with the length of the maximal
matching run starting there, enumerated in difflib's scan order (`i`
ascending, then `j` ascending). -/
def flmCands (a b : List Char) : List (Nat × Nat × Nat) :=
  (List.range a.length).flatMap fun i =>
    (List.range b.length).map fun j => (i, j, cpl (a.drop i) (b.drop j))

/-- difflib keeps a candidate only when its run length strictly exceeds the
best so far (`if k > bestsize`). -/
def flmStep (best c : Nat × Nat × Nat) : Nat × Nat × Nat :=
  if best.2.2 < c.2.2 then c else best

/-- `SequenceMatcher.find_longest_match` on whole strings: the longest
matching block, ties resolved to the block starting earliest in `a`, then
earliest in `b`; `(0, 0, 0)` when there is no nonempty matching block. -/
def flm (a b : List Char) : Nat × Nat × Nat :=
  (flmCands a b).foldl flmStep (0, 0, 0)

/-- Total size of the matching blocks produced by
`SequenceMatcher.get_matching_blocks`: recursive decomposition around the
longest match.  Structured with explicit fuel so that the kernel can evaluate
it; `matchTotal` supplies sufficient fuel. -/
def matchTotalF : Nat → List Char → List Char → Nat
  | 0, _, _ => 0
  | fuel + 1, a, b =>
    let r := flm a b
    if r.2.2 = 0 then 0
    else
      matchTotalF fuel (a.take r.1) (b.take r.2.1) + r.2.2 +
        matchTotalF fuel (a.drop (r.1 + r.2.2)) (b.drop (r.2.1 + r.2.2))

/-- Total matched size `M` over the matching-block decomposition. -/
def matchTotal (a b : List Char) : Nat :=
  matchTotalF (a.length + b.length) a b

/-- `SequenceMatcher.ratio`: `2*M / (len(a)+len(b))`, and `1.0` when both
strings are empty (difflib's `_calculate_ratio`). -/
def ratioChars (a b : List Char) : ℚ :=
  if a.length + b.length = 0 then 1
  else 2 * (matchTotal a b : ℚ) / ((a.length : ℚ) + (b.length : ℚ))

/-! ### Lemmas about the matcher -/

theorem cpl_le_left : ∀ a b : List Char, cpl a b ≤ a.length
  | [], _ => by simp [cpl]
  | _ :: _, [] => by simp [cpl]
  | x :: xs, y :: ys => by
    by_cases h : x = y <;> simp [cpl, h]
    exact cpl_le_left xs ys

theorem cpl_le_right : ∀ a b : List Char, cpl a b ≤ b.length
  | [], _ => by simp [cpl]
  | _ :: _, [] => by simp [cpl]
  | x :: xs, y :: ys => by
    by_cases h : x = y <;> simp [cpl, h]
    exact cpl_le_right xs ys

theorem cpl_self : ∀ a : List Char, cpl a a = a.length
  | [] => by simp [cpl]
  | x :: xs => by simp [cpl, cpl_self xs]

/-- The fold result is the initial value or one of the candidates. -/
theorem foldl_flmStep_mem (l : List (Nat × Nat × Nat)) :
    ∀ init, (l.foldl flmStep init) = init ∨ (l.foldl flmStep init) ∈ l := by
  induction l with
  | nil => intro init; left; rfl
  | cons c cs ih =>
    intro init
    have hstep : flmStep init c = init ∨ flmStep init c = c := by
      unfold flmStep; by_cases hlt : init.2.2 < c.2.2 <;> simp [hlt]
    have hfold : List.foldl flmStep init (c :: cs) =
        List.foldl flmStep (flmStep init c) cs := rfl
    rw [hfold]
    rcases ih (flmStep init c) with h | h
    · rw [h]
      rcases hstep with h2 | h2
      · left; exact h2
      · right; rw [h2]; exact List.mem_cons_self _ _
    · right; exact List.mem_cons_of_mem _ h

/-- The fold result's run length dominates every candidate's run length. -/
theorem foldl_flmStep_ge (l : List (Nat × Nat × Nat)) :
    ∀ init, init.2.2 ≤ (l.foldl flmStep init).2.2 ∧
      ∀ c ∈ l, c.2.2 ≤ (l.foldl flmStep init).2.2 := by
  induction l with
  | nil => intro init; exact ⟨le_refl _, by intro c hc; cases hc⟩
  | cons c cs ih =>
    intro init
    obtain ⟨h1, h2⟩ := ih (flmStep init c)
    constructor
    · refine le_trans ?_ h1
      unfold flmStep
      by_cases hlt : init.2.2 < c.2.2 <;> simp [hlt]
      exact le_of_lt hlt
    · intro d hd
      rcases List.mem_cons.1 hd with rfl | hd
      · refine le_trans ?_ h1
        unfold flmStep
        by_cases hlt : init.2.2 < d.2.2 <;> simp [hlt]
        exact Nat.le_of_not_lt hlt
      · exact h2 d hd

/-- Characterization of candidate membership. -/
theorem mem_flmCands {a b : List Char} {c : Nat × Nat × Nat} :
    c ∈ flmCands a b ↔
      c.1 < a.length ∧ c.2.1 < b.length ∧
        c.2.2 = cpl (a.drop c.1) (b.drop c.2.1) := by
  unfold flmCands
  constructor
  · intro h
    rcases List.mem_flatMap.1 h with ⟨i, hi, hc⟩
    rcases List.mem_map.1 hc with ⟨j, hj, rfl⟩
    exact ⟨List.mem_range.1 hi, List.mem_range.1 hj, rfl⟩
  · rintro ⟨h1, h2, h3⟩
    refine List.mem_flatMap.2 ⟨c.1, List.mem_range.2 h1, ?_⟩
    refine List.mem_map.2 ⟨c.2.1, List.mem_range.2 h2, ?_⟩
    obtain ⟨i, j, k⟩ := c
    simp only at h3
    simp [h3]

/-- The block returned by `flm` stays inside both strings. -/
theorem flm_bounds {a b : List Char} (h : (flm a b).2.2 ≠ 0) :
    (flm a b).1 + (flm a b).2.2 ≤ a.length ∧
      (flm a b).2.1 + (flm a b).2.2 ≤ b.length := by
  rcases foldl_flmStep_mem (flmCands a b) (0, 0, 0) with hm | hm
  · rw [flm] at h; rw [hm] at h; exact absurd rfl h
  · obtain ⟨h1, h2, h3⟩ := mem_flmCands.1 hm
    rw [flm]
    set r := (flmCands a b).foldl flmStep (0, 0, 0) with hr
    have ha : r.2.2 ≤ a.length - r.1 := by
      rw [h3]
      simpa using cpl_le_left (a.drop r.1) (b.drop r.2.1)
    have hb : r.2.2 ≤ b.length - r.2.1 := by
      rw [h3]
      simpa using cpl_le_right (a.drop r.1) (b.drop r.2.1)
    omega

theorem matchTotalF_succ (f : Nat) (a b : List Char) :
    matchTotalF (f + 1) a b =
      if (flm a b).2.2 = 0 then 0
      else matchTotalF f (a.take (flm a b).1) (b.take (flm a b).2.1) + (flm a b).2.2 +
        matchTotalF f (a.drop ((flm a b).1 + (flm a b).2.2))
          (b.drop ((flm a b).2.1 + (flm a b).2.2)) := rfl

/-- The matched total never exceeds the length of either string, regardless of
fuel. -/
theorem matchTotalF_le :
    ∀ fuel a b, matchTotalF fuel a b ≤ a.length ∧ matchTotalF fuel a b ≤ b.length := by
  intro fuel
  induction fuel with
  | zero => intro a b; exact ⟨Nat.zero_le _, Nat.zero_le _⟩
  | succ f ih =>
    intro a b
    rw [matchTotalF_succ]
    by_cases hk : (flm a b).2.2 = 0
    · simp [hk]
    · obtain ⟨hba, hbb⟩ := flm_bounds hk
      rw [if_neg hk]
      obtain ⟨l1, r1⟩ := ih (a.take (flm a b).1) (b.take (flm a b).2.1)
      obtain ⟨l2, r2⟩ := ih (a.drop ((flm a b).1 + (flm a b).2.2))
        (b.drop ((flm a b).2.1 + (flm a b).2.2))
      have h1 : (a.take (flm a b).1).length ≤ (flm a b).1 := by
        simp [List.length_take]
      have h2 : (a.drop ((flm a b).1 + (flm a b).2.2)).length =
          a.length - ((flm a b).1 + (flm a b).2.2) := by
        simp [List.length_drop]
      have h3 : (b.take (flm a b).2.1).length ≤ (flm a b).2.1 := by
        simp [List.length_take]
      have h4 : (b.drop ((flm a b).2.1 + (flm a b).2.2)).length =
          b.length - ((flm a b).2.1 + (flm a b).2.2) := by
        simp [List.length_drop]
      omega

/-- On a nonempty string, the longest self-match is the whole string at the
origin. -/
theorem flm_self (a : List Char) (h : a ≠ []) : flm a a = (0, 0, a.length) := by
  have hlen : 0 < a.length := List.length_pos.2 h
  have hcand : (0, 0, cpl (a.drop 0) (a.drop 0)) ∈ flmCands a a := by
    exact mem_flmCands.2 ⟨hlen, hlen, rfl⟩
  have hge := (foldl_flmStep_ge (flmCands a a) (0, 0, 0)).2 _ hcand
  simp only [List.drop_zero, cpl_self] at hge
  rcases foldl_flmStep_mem (flmCands a a) (0, 0, 0) with hm | hm
  · rw [flm] at *
    rw [hm] at hge
    have h0 : a.length ≤ 0 := hge
    omega
  · obtain ⟨h1, h2, h3⟩ := mem_flmCands.1 hm
    rw [flm] at *
    set r := (flmCands a a).foldl flmStep (0, 0, 0) with hr
    have hle1 : r.2.2 ≤ a.length - r.1 := by
      rw [h3]; simpa using cpl_le_left (a.drop r.1) (a.drop r.2.1)
    have hle2 : r.2.2 ≤ a.length - r.2.1 := by
      rw [h3]; simpa using cpl_le_right (a.drop r.1) (a.drop r.2.1)
    have e1 : r.1 = 0 := by omega
    have e2 : r.2.1 = 0 := by omega
    have e3 : r.2.2 = a.length := by
      rw [h3, e1, e2]; simp [cpl_self]
    obtain ⟨i, j, k⟩ := r
    simp only at e1 e2 e3
    simp [e1, e2, e3]

theorem matchTotalF_nil (fuel : Nat) : matchTotalF fuel [] [] = 0 := by
  cases fuel with
  | zero => rfl
  | succ f => rfl

/-- With positive fuel a string matched against itself matches entirely. -/
theorem matchTotalF_self (fuel : Nat) (a : List Char) :
    matchTotalF (fuel + 1) a a = a.length := by
  cases a with
  | nil => simp [matchTotalF_nil]
  | cons x xs =>
    have hne : (x :: xs : List Char) ≠ [] := by simp
    show (if (flm (x :: xs) (x :: xs)).2.2 = 0 then 0 else _) = _
    rw [flm_self _ hne]
    simp only
    rw [if_neg (by simp)]
    simp [List.drop_length, matchTotalF_nil]

theorem matchTotal_self (a : List Char) : matchTotal a a = a.length := by
  cases a with
  | nil => simp [matchTotal, matchTotalF_nil]
  | cons x xs =>
    unfold matchTotal
    have : (x :: xs : List Char).length + (x :: xs : List Char).length =
        ((x :: xs : List Char).length + xs.length) + 1 := by simp; omega
    rw [this, matchTotalF_self]

theorem matchTotal_le_left (a b : List Char) : matchTotal a b ≤ a.length :=
  (matchTotalF_le _ a b).1

theorem matchTotal_le_right (a b : List Char) : matchTotal a b ≤ b.length :=
  (matchTotalF_le _ a b).2

/-- `ratio(s, s) == 1.0`. -/
theorem ratioChars_self (a : List Char) : ratioChars a a = 1 := by
  unfold ratioChars
  by_cases h : a.length + a.length = 0
  · simp [h]
  · rw [if_neg h, matchTotal_self]
    have hpos : (0 : ℚ) < (a.length : ℚ) + (a.length : ℚ) := by
      have h0 : 0 < a.length + a.length := Nat.pos_of_ne_zero h
      exact_mod_cast h0
    rw [div_eq_one_iff_eq (ne_of_gt hpos)]
    ring

/-- `0 ≤ ratio`. -/
theorem ratioChars_nonneg (a b : List Char) : 0 ≤ ratioChars a b := by
  unfold ratioChars
  by_cases h : a.length + b.length = 0
  · simp [h]
  · rw [if_neg h]
    apply div_nonneg
    · positivity
    · positivity

/-- `ratio ≤ 1`. -/
theorem ratioChars_le_one (a b : List Char) : ratioChars a b ≤ 1 := by
  unfold ratioChars
  by_cases h : a.length + b.length = 0
  · simp [h]
  · rw [if_neg h]
    have hpos : (0 : ℚ) < (a.length : ℚ) + (b.length : ℚ) := by
      have : 0 < a.length + b.length := Nat.pos_of_ne_zero h
      exact_mod_cast this
    rw [div_le_one hpos]
    have h1 := matchTotal_le_left a b
    have h2 := matchTotal_le_right a b
    have : (matchTotal a b : ℚ) + (matchTotal a b : ℚ) ≤
        (a.length : ℚ) + (b.length : ℚ) := by
      have := Nat.add_le_add h1 h2
      exact_mod_cast this
    linarith

/-! ## JSON values and `json.dumps(·, sort_keys=True)` -/

/-- JSON values, the shape of the AST dictionaries Slither returns. -/
inductive Json where
  | null : Json
  | bool (b : Bool) : Json
  | num (n : Int) : Json
  | str (s : String) : Json
  | arr (xs : List Json) : Json
  | obj (kvs : List (String × Json)) : Json

/-- Python escapes the quote and the backslash inside JSON strings (control
characters and non-ASCII escaping are not exercised here). -/
def jescChar (c : Char) : String :=
  if c = '"' then "\\\"" else if c = '\\' then "\\\\" else String.singleton c

/-- A JSON string literal: quoted and escaped. -/
def jquote (s : String) : String :=
  "\"" ++ String.join (s.data.map jescChar) ++ "\""

mutual
/-- `json.dumps` with the default separators `", "` and `": "` and
`sort_keys=True`.  Object values are rendered structurally first and the
rendered key/value pairs are then sorted by key (insertion sort is stable,
like Python's sort; sorting the pairs by key before or after rendering the
values yields the same string). -/
def dumps : Json → String
  | Json.null => "null"
  | Json.bool b => if b then "true" else "false"
  | Json.num n => toString n
  | Json.str s => jquote s
  | Json.arr xs => "[" ++ String.intercalate (", ") (dumpsList xs) ++ "]"
  | Json.obj kvs =>
      "\x7b" ++
        String.intercalate (", ")
          (((dumpsKVs kvs).insertionSort (fun a b => a.1 ≤ b.1)).map
            (fun kv => jquote kv.1 ++ ": " ++ kv.2)) ++
        "\x7d"
def dumpsList : List Json → List String
  | [] => []
  | x :: xs => dumps x :: dumpsList xs
def dumpsKVs : List (String × Json) → List (String × String)
  | [] => []
  | (k, v) :: r => (k, dumps v) :: dumpsKVs r
end

/-- Python truthiness (`if ast1 and ast2`): an empty dict, empty list, empty
string, zero and `None`/`False` are falsy. -/
def pyTruthy : Json → Bool
  | Json.null => false
  | Json.bool b => b
  | Json.num n => decide (n ≠ 0)
  | Json.str s => decide (s ≠ "")
  | Json.arr xs => !xs.isEmpty
  | Json.obj kvs => !kvs.isEmpty

/-- `SolidityComparator.ast_similarity`: serialize both ASTs canonically and
return the `SequenceMatcher` ratio of the two strings. -/
def ast_similarity (ast1 ast2 : Json) : ℚ :=
  ratioChars (dumps ast1).data (dumps ast2).data

theorem ast_similarity_self (ast : Json) : ast_similarity ast ast = 1 :=
  ratioChars_self _

theorem ast_similarity_nonneg (ast1 ast2 : Json) : 0 ≤ ast_similarity ast1 ast2 :=
  ratioChars_nonneg _ _

theorem ast_similarity_le_one (ast1 ast2 : Json) : ast_similarity ast1 ast2 ≤ 1 :=
  ratioChars_le_one _ _

/-! ## CFGs, networkx digraphs and graph edit distance -/

/-- A Slither function CFG as consumed by `cfg_to_networkx`: the node list and
the successor edges (each node paired with the destination of one of its
`succ_edges`). -/
structure Cfg where
  nodes : List Nat
  edges : List (Nat × Nat)
  deriving DecidableEq

/-- A networkx `DiGraph`: nodes and edges are stored as sets, embedded here as
deduplicated lists. -/
structure Graph where
  nodes : List Nat
  edges : List (Nat × Nat)

/-- Deduplication (a networkx graph stores nodes and edges as sets; only the
member set matters for sizes and the edit distance). -/
def dedupF {α : Type} [DecidableEq α] : List α → List α
  | [] => []
  | x :: xs => if x ∈ dedupF xs then dedupF xs else x :: dedupF xs

theorem mem_dedupF {α : Type} [DecidableEq α] :
    ∀ (l : List α) (a : α), a ∈ dedupF l ↔ a ∈ l := by
  intro l
  induction l with
  | nil => intro a; simp [dedupF]
  | cons x xs ih =>
    intro a
    unfold dedupF
    by_cases hx : x ∈ dedupF xs
    · rw [if_pos hx]
      constructor
      · intro h
        exact List.mem_cons_of_mem _ ((ih a).1 h)
      · intro h
        rcases List.mem_cons.1 h with rfl | h
        · exact hx
        · exact (ih a).2 h
    · rw [if_neg hx]
      constructor
      · intro h
        rcases List.mem_cons.1 h with rfl | h
        · exact List.mem_cons_self _ _
        · exact List.mem_cons_of_mem _ ((ih a).1 h)
      · intro h
        rcases List.mem_cons.1 h with rfl | h
        · exact List.mem_cons_self _ _
        · exact List.mem_cons_of_mem _ ((ih a).2 h)

/-- The inner `cfg_to_networkx` of `SolidityComparator.cfg_similarity`:
`add_node` for every CFG node, `add_edge(node, edge.dest)` for every successor
edge (`add_edge` also inserts missing endpoints). -/
def cfg_to_networkx (cfg : Cfg) : Graph :=
  { nodes := dedupF (cfg.nodes ++ cfg.edges.flatMap (fun e => [e.1, e.2]))
    edges := dedupF cfg.edges }

/-- `nx.DiGraph.size()`: the number of edges of the graph. -/
def Graph.size (g : Graph) : Nat := g.edges.length

/-- Apply a node mapping given as an association list. -/
def mapNode (f : List (Nat × Nat)) (n : Nat) : Nat :=
  match f.find? (fun p => p.1 == n) with
  | some p => p.2
  | none => n

def mapEdge (f : List (Nat × Nat)) (e : Nat × Nat) : Nat × Nat :=
  (mapNode f e.1, mapNode f e.2)

/-- Edge edit cost of a node mapping: edges of the first graph whose image is
not an edge of the second are deleted, edges of the second graph that are not
an image are inserted (cost 1 each; edge substitution is free). -/
def edgeCost (f : List (Nat × Nat)) (E1 E2 : List (Nat × Nat)) : Nat :=
  (E1.filter (fun e => decide (mapEdge f e ∉ E2))).length +
    (E2.filter (fun e => decide (e ∉ E1.map (mapEdge f)))).length

/-- All the ways of inserting an element into a list. -/
def insertEverywhere {α : Type} (x : α) : List α → List (List α)
  | [] => [[x]]
  | y :: ys => (x :: y :: ys) :: (insertEverywhere x ys).map (fun zs => y :: zs)

/-- All permutations of a list. -/
def perms {α : Type} : List α → List (List α)
  | [] => [[]]
  | x :: xs => (perms xs).flatMap (insertEverywhere x)

/-- A list is one of its own permutations. -/
theorem self_mem_perms {α : Type} : ∀ l : List α, l ∈ perms l := by
  intro l
  induction l with
  | nil => exact List.mem_singleton.2 rfl
  | cons x xs ih =>
    unfold perms
    apply List.mem_flatMap.2
    refine ⟨xs, ih, ?_⟩
    cases xs <;> exact List.mem_cons_self _ _

/-- Minimal edit cost over all injections of the smaller node set `Vs` into
the larger node set `Vb` (enumerated through permutations of `Vb`; `zip`
truncates to the length of `Vs`).  The unmatched `|Vb| - |Vs|` nodes cost one
insertion each; node substitution is free. -/
def gedAux (Vs Vb : List Nat) (Es Eb : List (Nat × Nat)) : Nat :=
  ((perms Vb).map
      (fun p => (Vb.length - Vs.length) + edgeCost (Vs.zip p) Es Eb)).foldl
    Nat.min ((Vb.length - Vs.length) + Es.length + Eb.length)

/-- `nx.graph_edit_distance` with its default costs (substitution free,
insertion/deletion cost 1): an optimal edit path matches `min(|V1|,|V2|)`
nodes, so the distance is the node-count difference plus the minimal edge
symmetric-difference cost over all injections of the smaller node set into
the larger. -/
def graph_edit_distance (g1 g2 : Graph) : Nat :=
  if g1.nodes.length ≤ g2.nodes.length then
    gedAux g1.nodes g2.nodes g1.edges g2.edges
  else
    gedAux g2.nodes g1.nodes g2.edges g1.edges

/-- The exact scoring oracle: `nx.graph_edit_distance` returning normally. -/
def nxGed : Graph → Graph → Option Nat :=
  fun g1 g2 => some (graph_edit_distance g1 g2)

/-- `SolidityComparator.cfg_similarity`: build the two digraphs, ask the
oracle for the edit distance (`none` models the `except` branch: the call
raised), and normalize by the larger `Graph.size` (edge count).  On failure
the similarity is `0.0`. -/
def cfg_similarity (gedO : Graph → Graph → Option Nat) (cfg1 cfg2 : Cfg) : ℚ :=
  let g1 := cfg_to_networkx cfg1
  let g2 := cfg_to_networkx cfg2
  match gedO g1 g2 with
  | none => 0
  | some distance =>
      let max_distance := max g1.size g2.size
      if max_distance = 0 then 1
      else 1 - (distance : ℚ) / (max_distance : ℚ)

/-! ### Lemmas about the edit distance -/

theorem foldl_min_le_init (l : List Nat) : ∀ init, l.foldl Nat.min init ≤ init := by
  induction l with
  | nil => intro init; exact le_refl _
  | cons c cs ih =>
    intro init
    exact le_trans (ih (Nat.min init c)) (Nat.min_le_left _ _)

theorem foldl_min_le_mem {l : List Nat} {x : Nat} (h : x ∈ l) :
    ∀ init, l.foldl Nat.min init ≤ x := by
  induction l with
  | nil => cases h
  | cons c cs ih =>
    intro init
    rcases List.mem_cons.1 h with rfl | h
    · exact le_trans (foldl_min_le_init cs _) (Nat.min_le_right _ _)
    · exact ih h _

theorem mapNode_zip_self {V : List Nat} {n : Nat} (h : n ∈ V) :
    mapNode (V.zip V) n = n := by
  induction V with
  | nil => cases h
  | cons v vs ih =>
    unfold mapNode
    by_cases hv : v = n
    · simp [List.find?, hv]
    · rcases List.mem_cons.1 h with rfl | h
      · exact absurd rfl hv
      · simp only [List.zip_cons_cons, List.find?]
        rw [show ((v, v).1 == n) = false by simpa using hv]
        exact ih h

/-- An embedded graph is well-formed when every edge endpoint is a node. -/
def Graph.wf (g : Graph) : Prop :=
  ∀ e ∈ g.edges, e.1 ∈ g.nodes ∧ e.2 ∈ g.nodes

theorem cfg_to_networkx_wf (cfg : Cfg) : (cfg_to_networkx cfg).wf := by
  intro e he
  have he' : e ∈ cfg.edges := (mem_dedupF _ _).1 he
  constructor
  · apply (mem_dedupF _ _).2
    apply List.mem_append_right
    exact List.mem_flatMap.2 ⟨e, he', by simp⟩
  · apply (mem_dedupF _ _).2
    apply List.mem_append_right
    exact List.mem_flatMap.2 ⟨e, he', by simp⟩

/-- The edit distance from a well-formed graph to itself is zero (the
identity matching has no cost). -/
theorem graph_edit_distance_self {g : Graph} (hwf : g.wf) :
    graph_edit_distance g g = 0 := by
  unfold graph_edit_distance
  rw [if_pos (le_refl _)]
  have hid : ∀ e ∈ g.edges, mapEdge (g.nodes.zip g.nodes) e = e := by
    intro e he
    obtain ⟨h1, h2⟩ := hwf e he
    unfold mapEdge
    rw [mapNode_zip_self h1, mapNode_zip_self h2]
  have hcost : edgeCost (g.nodes.zip g.nodes) g.edges g.edges = 0 := by
    unfold edgeCost
    have hmap : g.edges.map (mapEdge (g.nodes.zip g.nodes)) = g.edges := by
      rw [List.map_congr_left hid]
      exact List.map_id _
    rw [hmap]
    have h1 : g.edges.filter
        (fun e => decide (mapEdge (g.nodes.zip g.nodes) e ∉ g.edges)) = [] := by
      apply List.filter_eq_nil_iff.2
      intro e he
      rw [hid e he]
      simp [he]
    have h2 : g.edges.filter (fun e => decide (e ∉ g.edges)) = [] := by
      apply List.filter_eq_nil_iff.2
      intro e he
      simp [he]
    rw [h1, h2]
    rfl
  have hmem : (g.nodes.length - g.nodes.length) +
      edgeCost (g.nodes.zip g.nodes) g.edges g.edges ∈
      (perms g.nodes).map
        (fun p => (g.nodes.length - g.nodes.length) +
          edgeCost (g.nodes.zip p) g.edges g.edges) := by
    exact List.mem_map.2 ⟨g.nodes, self_mem_perms _, rfl⟩
  have hle := foldl_min_le_mem hmem
    ((g.nodes.length - g.nodes.length) + g.edges.length + g.edges.length)
  rw [hcost] at hle
  simp only [Nat.sub_self, Nat.add_zero] at hle
  exact Nat.le_zero.1 (by simpa [gedAux] using hle)

/-- Unfolding lemma for `cfg_similarity`. -/
theorem cfg_similarity_def (gedO : Graph → Graph → Option Nat) (cfg1 cfg2 : Cfg) :
    cfg_similarity gedO cfg1 cfg2 =
      match gedO (cfg_to_networkx cfg1) (cfg_to_networkx cfg2) with
      | none => 0
      | some distance =>
          if max (cfg_to_networkx cfg1).size (cfg_to_networkx cfg2).size = 0 then 1
          else 1 - (distance : ℚ) /
            ((max (cfg_to_networkx cfg1).size (cfg_to_networkx cfg2).size : Nat) : ℚ) :=
  rfl

/-- Reflexivity of the single-pair CFG similarity. -/
theorem cfg_similarity_self (cfg : Cfg) : cfg_similarity nxGed cfg cfg = 1 := by
  rw [cfg_similarity_def]
  simp only [nxGed]
  rw [graph_edit_distance_self (cfg_to_networkx_wf cfg)]
  by_cases h : max (cfg_to_networkx cfg).size (cfg_to_networkx cfg).size = 0
  · simp [h]
  · simp [h]

/-- Every single-pair CFG similarity is at most one, whatever the oracle
does. -/
theorem cfg_similarity_le_one (gedO : Graph → Graph → Option Nat) (cfg1 cfg2 : Cfg) :
    cfg_similarity gedO cfg1 cfg2 ≤ 1 := by
  cases hO : gedO (cfg_to_networkx cfg1) (cfg_to_networkx cfg2) with
  | none =>
    rw [cfg_similarity_def, hO]
    norm_num
  | some d =>
    rw [cfg_similarity_def, hO]
    by_cases h : max (cfg_to_networkx cfg1).size (cfg_to_networkx cfg2).size = 0
    · simp [h]
    · simp only [h, if_false]
      have hd : (0 : ℚ) ≤ (d : ℚ) /
          ((max (cfg_to_networkx cfg1).size (cfg_to_networkx cfg2).size : Nat) : ℚ) := by
        positivity
      linarith

/-! ## Combining AST and CFG similarity (`compute_similarity`) -/

/-- The nested `for cfg1 in cfgs1: for cfg2 in cfgs2:` loop of
`compute_similarity`, accumulating `cfg_sim_total` and `count`. -/
def cfgLoop (gedO : Graph → Graph → Option Nat) (cfgs1 cfgs2 : List Cfg) : ℚ × Nat :=
  cfgs1.foldl
    (fun acc cfg1 =>
      cfgs2.foldl
        (fun acc2 cfg2 => (acc2.1 + cfg_similarity gedO cfg1 cfg2, acc2.2 + 1)) acc)
    (0, 0)

/-- The `cfg_sim` computed by `compute_similarity`: the loop average when any
pair was scored, `1.0` otherwise ("consider them identical if no CFG
exists"). -/
def cfg_aggregate (gedO : Graph → Graph → Option Nat) (cfgs1 cfgs2 : List Cfg) : ℚ :=
  let tc := cfgLoop gedO cfgs1 cfgs2
  if 0 < tc.2 then tc.1 / (tc.2 : ℚ) else 1

/-- `SolidityComparator.compute_similarity`: the mean of the AST similarity
and the aggregated CFG similarity. -/
def compute_similarity (gedO : Graph → Graph → Option Nat)
    (ast1 ast2 : Json) (cfgs1 cfgs2 : List Cfg) : ℚ :=
  (ast_similarity ast1 ast2 + cfg_aggregate gedO cfgs1 cfgs2) / 2

/-- The aggregate CFG similarity as the specification words it: the
arithmetic mean of the per-pair scores over the full cross product of the two
CFG sequences, and `1.0` if either sequence is empty. -/
def specCfgAggregate (gedO : Graph → Graph → Option Nat) (l1 l2 : List Cfg) : ℚ :=
  if l1 = [] ∨ l2 = [] then 1
  else ((l1.flatMap (fun c1 => l2.map (fun c2 => cfg_similarity gedO c1 c2))).sum) /
    (((l1.length * l2.length : Nat)) : ℚ)

theorem cfgLoop_inner (gedO : Graph → Graph → Option Nat) (c1 : Cfg) (l2 : List Cfg) :
    ∀ acc : ℚ × Nat,
      l2.foldl
        (fun acc2 cfg2 => (acc2.1 + cfg_similarity gedO c1 cfg2, acc2.2 + 1)) acc =
      (acc.1 + (l2.map (fun c2 => cfg_similarity gedO c1 c2)).sum, acc.2 + l2.length) := by
  induction l2 with
  | nil => intro acc; simp
  | cons c cs ih =>
    intro acc
    rw [List.foldl_cons, ih]
    simp only [List.map_cons, List.sum_cons, List.length_cons, Prod.mk.injEq]
    exact ⟨by ring, by omega⟩

theorem cfgLoop_outer (gedO : Graph → Graph → Option Nat) (l1 l2 : List Cfg) :
    ∀ acc : ℚ × Nat,
      l1.foldl
        (fun acc cfg1 =>
          l2.foldl
            (fun acc2 cfg2 => (acc2.1 + cfg_similarity gedO cfg1 cfg2, acc2.2 + 1)) acc)
        acc =
      (acc.1 + (l1.flatMap (fun c1 => l2.map (fun c2 => cfg_similarity gedO c1 c2))).sum,
        acc.2 + l1.length * l2.length) := by
  induction l1 with
  | nil => intro acc; simp
  | cons c cs ih =>
    intro acc
    rw [List.foldl_cons, cfgLoop_inner, ih]
    simp only [List.flatMap_cons, List.sum_append, List.length_cons, Prod.mk.injEq]
    exact ⟨by ring, by ring⟩

/-- The nested loop computes the cross-product sum and the product of the
lengths. -/
theorem cfgLoop_eq (gedO : Graph → Graph → Option Nat) (l1 l2 : List Cfg) :
    cfgLoop gedO l1 l2 =
      ((l1.flatMap (fun c1 => l2.map (fun c2 => cfg_similarity gedO c1 c2))).sum,
        l1.length * l2.length) := by
  rw [cfgLoop, cfgLoop_outer]
  simp

/-- The loop-with-count formulation in the code equals the cross-product
arithmetic mean stated by the specification. -/
theorem cfg_aggregate_eq_spec (gedO : Graph → Graph → Option Nat) (l1 l2 : List Cfg) :
    cfg_aggregate gedO l1 l2 = specCfgAggregate gedO l1 l2 := by
  unfold cfg_aggregate specCfgAggregate
  rw [cfgLoop_eq]
  simp only
  by_cases h : l1 = [] ∨ l2 = []
  · have hz : l1.length * l2.length = 0 := by
      rcases h with h | h <;> simp [h]
    rw [if_pos h, hz]
    simp
  · push_neg at h
    have hp : 0 < l1.length * l2.length := by
      apply Nat.mul_pos
      · exact List.length_pos.2 h.1
      · exact List.length_pos.2 h.2
    rw [if_pos hp, if_neg (by rcases h with ⟨h1, h2⟩; simp [h1, h2])]

/-- If either CFG list is empty the aggregate is `1.0`. -/
theorem cfg_aggregate_nil (gedO : Graph → Graph → Option Nat) (l1 l2 : List Cfg)
    (h : l1 = [] ∨ l2 = []) : cfg_aggregate gedO l1 l2 = 1 := by
  rw [cfg_aggregate_eq_spec]
  unfold specCfgAggregate
  rw [if_pos h]

theorem length_crossProduct (f : Cfg → Cfg → ℚ) (l1 l2 : List Cfg) :
    (l1.flatMap (fun c1 => l2.map (fun c2 => f c1 c2))).length =
      l1.length * l2.length := by
  induction l1 with
  | nil => simp
  | cons c cs ih => simp [ih]; ring

/-- The aggregate CFG similarity never exceeds one. -/
theorem cfg_aggregate_le_one (gedO : Graph → Graph → Option Nat) (l1 l2 : List Cfg) :
    cfg_aggregate gedO l1 l2 ≤ 1 := by
  rw [cfg_aggregate_eq_spec]
  unfold specCfgAggregate
  by_cases h : l1 = [] ∨ l2 = []
  · rw [if_pos h]
  · rw [if_neg h]
    push_neg at h
    have hp : 0 < l1.length * l2.length := by
      apply Nat.mul_pos
      · exact List.length_pos.2 h.1
      · exact List.length_pos.2 h.2
    have hpq : (0 : ℚ) < ((l1.length * l2.length : Nat) : ℚ) := by exact_mod_cast hp
    rw [div_le_one hpq]
    have hsum : (l1.flatMap (fun c1 => l2.map (fun c2 => cfg_similarity gedO c1 c2))).sum ≤
        (l1.flatMap (fun c1 => l2.map (fun c2 => cfg_similarity gedO c1 c2))).length • (1 : ℚ) := by
      apply List.sum_le_card_nsmul
      intro x hx
      rcases List.mem_flatMap.1 hx with ⟨c1, _, hx2⟩
      rcases List.mem_map.1 hx2 with ⟨c2, _, rfl⟩
      exact cfg_similarity_le_one gedO c1 c2
    rw [length_crossProduct] at hsum
    calc (l1.flatMap (fun c1 => l2.map (fun c2 => cfg_similarity gedO c1 c2))).sum
        ≤ (l1.length * l2.length) • (1 : ℚ) := hsum
      _ = ((l1.length * l2.length : Nat) : ℚ) := by simp

/-- On a single-CFG contract the self-aggregate is one. -/
theorem cfg_aggregate_self_short (l : List Cfg) (h : l.length ≤ 1) :
    cfg_aggregate nxGed l l = 1 := by
  match l, h with
  | [], _ => exact cfg_aggregate_nil _ _ _ (Or.inl rfl)
  | [c], _ =>
    rw [cfg_aggregate_eq_spec]
    unfold specCfgAggregate
    rw [if_neg (by simp)]
    simp [cfg_similarity_self]

/-- The combined similarity never exceeds one. -/
theorem compute_similarity_le_one (gedO : Graph → Graph → Option Nat)
    (ast1 ast2 : Json) (cfgs1 cfgs2 : List Cfg) :
    compute_similarity gedO ast1 ast2 cfgs1 cfgs2 ≤ 1 := by
  unfold compute_similarity
  have h1 := ast_similarity_le_one ast1 ast2
  have h2 := cfg_aggregate_le_one gedO cfgs1 cfgs2
  linarith

/-! ### Symmetry of the CFG aggregate -/

/-- Single-pair CFG similarity is symmetric whenever the edit-distance oracle
is (which `nx.graph_edit_distance` with symmetric default costs is). -/
theorem cfg_similarity_symm (gedO : Graph → Graph → Option Nat)
    (hged : ∀ g1 g2, gedO g1 g2 = gedO g2 g1) (c1 c2 : Cfg) :
    cfg_similarity gedO c1 c2 = cfg_similarity gedO c2 c1 := by
  cases hO : gedO (cfg_to_networkx c2) (cfg_to_networkx c1) with
  | none => rw [cfg_similarity_def, cfg_similarity_def, hged, hO]
  | some d => rw [cfg_similarity_def, cfg_similarity_def, hged, hO, Nat.max_comm]

theorem sum_map_add (f g : Cfg → ℚ) (l : List Cfg) :
    (l.map (fun y => f y + g y)).sum = (l.map f).sum + (l.map g).sum := by
  induction l with
  | nil => simp
  | cons x xs ih =>
    simp only [List.map_cons, List.sum_cons, ih]
    ring

theorem sum_flatMap_eq (g : Cfg → List ℚ) (l : List Cfg) :
    (l.flatMap g).sum = (l.map (fun x => (g x).sum)).sum := by
  induction l with
  | nil => simp
  | cons x xs ih => simp [List.sum_append, ih]

/-- Exchanging the two summation orders of a cross-product sum. -/
theorem sum_crossProduct_swap (f : Cfg → Cfg → ℚ) (l1 l2 : List Cfg) :
    (l1.flatMap (fun x => l2.map (fun y => f x y))).sum =
      (l2.flatMap (fun y => l1.map (fun x => f x y))).sum := by
  rw [sum_flatMap_eq, sum_flatMap_eq]
  induction l1 with
  | nil => simp
  | cons x xs ih =>
    simp only [List.map_cons, List.sum_cons, ih]
    rw [sum_map_add (fun y => f x y) (fun y => (xs.map (fun x => f x y)).sum) l2]

theorem flatMap_cross_congr (f g : Cfg → Cfg → ℚ) (hfg : ∀ x y, f x y = g x y)
    (l1 l2 : List Cfg) :
    l1.flatMap (fun x => l2.map (fun y => f x y)) =
      l1.flatMap (fun x => l2.map (fun y => g x y)) := by
  have hF : (fun x => l2.map (fun y => f x y)) = (fun x => l2.map (fun y => g x y)) :=
    funext (fun x => List.map_congr_left (fun y _ => hfg x y))
  rw [hF]

/-- The aggregate CFG similarity is symmetric for a symmetric oracle. -/
theorem cfg_aggregate_symm (gedO : Graph → Graph → Option Nat)
    (hged : ∀ g1 g2, gedO g1 g2 = gedO g2 g1) (l1 l2 : List Cfg) :
    cfg_aggregate gedO l1 l2 = cfg_aggregate gedO l2 l1 := by
  rw [cfg_aggregate_eq_spec, cfg_aggregate_eq_spec]
  unfold specCfgAggregate
  by_cases h : l1 = [] ∨ l2 = []
  · rw [if_pos h, if_pos h.symm]
  · rw [if_neg h, if_neg (fun hc => h hc.symm)]
    have hnum : (l1.flatMap (fun x => l2.map (fun y => cfg_similarity gedO x y))).sum =
        (l2.flatMap (fun y => l1.map (fun x => cfg_similarity gedO y x))).sum := by
      rw [flatMap_cross_congr _ (fun x y => cfg_similarity gedO y x)
        (fun x y => cfg_similarity_symm gedO hged x y) l1 l2]
      exact sum_crossProduct_swap (fun x y => cfg_similarity gedO y x) l1 l2
    rw [hnum, Nat.mul_comm]

/-- Swapping the argument pairs changes the combined score exactly by half
the difference of the two `SequenceMatcher` ratio orders. -/
theorem compute_similarity_swap (gedO : Graph → Graph → Option Nat)
    (hged : ∀ g1 g2, gedO g1 g2 = gedO g2 g1)
    (a1 a2 : Json) (l1 l2 : List Cfg) :
    compute_similarity gedO a1 a2 l1 l2 - compute_similarity gedO a2 a1 l2 l1 =
      (ast_similarity a1 a2 - ast_similarity a2 a1) / 2 := by
  unfold compute_similarity
  rw [cfg_aggregate_symm gedO hged l1 l2]
  ring

/-! ## Pairwise comparison over discovered files (`compare_contracts`) -/

/-- The Slither boundary: per-file raw extraction outcomes.  `none` models the
corresponding Slither call raising. -/
structure Extractor where
  astRaw : String → Option Json
  cfgRaw : String → Option (List Cfg)

/-- `SolidityComparator.extract_ast`: the raised exception is caught and an
empty dict `{}` is returned. -/
def extract_ast (E : Extractor) (p : String) : Json :=
  (E.astRaw p).getD (Json.obj [])

/-- `SolidityComparator.extract_cfg`: the raised exception is caught and an
empty list is returned (indistinguishable from a contract without
functions). -/
def extract_cfg (E : Extractor) (p : String) : List Cfg :=
  (E.cfgRaw p).getD []

/-- One element of `SolidityComparator.results`. -/
structure Entry where
  contract_1 : String
  contract_2 : String
  similarity : ℚ

/-- All unordered pairs `(i, j)` with `i < j`, in loop order. -/
def allPairs {α : Type} : List α → List (α × α)
  | [] => []
  | x :: xs => xs.map (fun y => (x, y)) ++ allPairs xs

/-- The body of the double loop of `compare_contracts` for one pair: extract
both contracts, and append a result exactly when both ASTs are truthy
(`if ast1 and ast2`). -/
def comparePair (E : Extractor) (gedO : Graph → Graph → Option Nat)
    (c1 c2 : String) : Option Entry :=
  if pyTruthy (extract_ast E c1) && pyTruthy (extract_ast E c2) then
    some ⟨c1, c2,
      compute_similarity gedO (extract_ast E c1) (extract_ast E c2)
        (extract_cfg E c1) (extract_cfg E c2)⟩
  else none

/-- `SolidityComparator.compare_contracts`: the collected `results` list. -/
def compare_contracts (E : Extractor) (gedO : Graph → Graph → Option Nat)
    (files : List String) : List Entry :=
  (allPairs files).filterMap (fun pr => comparePair E gedO pr.1 pr.2)

/-- `compare_contracts` instrumented with invocation counters: the loop body
calls `extract_ast` twice and `extract_cfg` twice for every pair `(i, j)`,
before the truthiness test. -/
def compare_contracts_traced (E : Extractor) (gedO : Graph → Graph → Option Nat)
    (files : List String) : List Entry × Nat × Nat :=
  (allPairs files).foldl
    (fun st pr =>
      let astCalls := st.2.1 + 2
      let cfgCalls := st.2.2 + 2
      match comparePair E gedO pr.1 pr.2 with
      | some e => (st.1 ++ [e], astCalls, cfgCalls)
      | none => (st.1, astCalls, cfgCalls))
    ([], 0, 0)

/-! ### Lemmas about the pairwise loop -/

theorem length_allPairs {α : Type} (l : List α) :
    (allPairs l).length = Nat.choose l.length 2 := by
  induction l with
  | nil => rfl
  | cons x xs ih =>
    simp only [allPairs, List.length_append, List.length_map, ih, List.length_cons]
    rw [Nat.choose_succ_succ, Nat.choose_one_right]

theorem mem_allPairs {α : Type} :
    ∀ (l : List α) (p : α × α), p ∈ allPairs l → p.1 ∈ l ∧ p.2 ∈ l := by
  intro l
  induction l with
  | nil => intro p h; cases h
  | cons x xs ih =>
    intro p h
    rcases List.mem_append.1 h with h | h
    · rcases List.mem_map.1 h with ⟨y, hy, rfl⟩
      exact ⟨List.mem_cons_self _ _, List.mem_cons_of_mem _ hy⟩
    · obtain ⟨h1, h2⟩ := ih p h
      exact ⟨List.mem_cons_of_mem _ h1, List.mem_cons_of_mem _ h2⟩

/-- In a duplicate-free file list, the loop only produces pairs whose first
element sits strictly before the second. -/
theorem allPairs_indexOf_lt :
    ∀ (l : List String), l.Nodup →
      ∀ p : String × String, p ∈ allPairs l → l.indexOf p.1 < l.indexOf p.2 := by
  intro l
  induction l with
  | nil => intro _ p h; cases h
  | cons x xs ih =>
    intro hnd p h
    obtain ⟨hx, hnd2⟩ := List.nodup_cons.1 hnd
    rcases List.mem_append.1 h with h | h
    · rcases List.mem_map.1 h with ⟨y, hy, rfl⟩
      have hyx : x ≠ y := fun he => hx (he ▸ hy)
      simp only
      rw [List.indexOf_cons_self, List.indexOf_cons_ne _ hyx]
      omega
    · have h12 := ih hnd2 p h
      obtain ⟨h1, h2⟩ := mem_allPairs xs p h
      have hne1 : x ≠ p.1 := fun he => hx (he ▸ h1)
      have hne2 : x ≠ p.2 := fun he => hx (he ▸ h2)
      rw [List.indexOf_cons_ne _ hne1, List.indexOf_cons_ne _ hne2]
      omega

theorem comparePair_pos {E : Extractor} {gedO : Graph → Graph → Option Nat}
    {a b : String}
    (hc : (pyTruthy (extract_ast E a) && pyTruthy (extract_ast E b)) = true) :
    comparePair E gedO a b =
      some ⟨a, b,
        compute_similarity gedO (extract_ast E a) (extract_ast E b)
          (extract_cfg E a) (extract_cfg E b)⟩ := by
  unfold comparePair
  rw [if_pos hc]

theorem comparePair_neg {E : Extractor} {gedO : Graph → Graph → Option Nat}
    {a b : String}
    (hc : ¬ (pyTruthy (extract_ast E a) && pyTruthy (extract_ast E b)) = true) :
    comparePair E gedO a b = none := by
  unfold comparePair
  rw [if_neg hc]

/-- Every collected entry comes from a loop pair and has both ASTs truthy. -/
theorem mem_compare_contracts {E : Extractor} {gedO : Graph → Graph → Option Nat}
    {files : List String} {e : Entry} (h : e ∈ compare_contracts E gedO files) :
    (e.contract_1, e.contract_2) ∈ allPairs files ∧
      pyTruthy (extract_ast E e.contract_1) = true ∧
      pyTruthy (extract_ast E e.contract_2) = true := by
  rcases List.mem_filterMap.1 h with ⟨pr, hpr, hcp⟩
  by_cases hc : pyTruthy (extract_ast E pr.1) && pyTruthy (extract_ast E pr.2)
  · rw [comparePair_pos hc] at hcp
    have hb := hc
    rw [Bool.and_eq_true] at hb
    obtain ⟨hb1, hb2⟩ := hb
    injection hcp with he
    subst he
    exact ⟨hpr, hb1, hb2⟩
  · rw [comparePair_neg hc] at hcp
    cases hcp

theorem filterMap_comparePair_head (E : Extractor) (gedO : Graph → Graph → Option Nat)
    (x : String) (xs : List String) :
    ((xs.map (fun y => (x, y))).filterMap
        (fun pr => comparePair E gedO pr.1 pr.2)).length =
      if pyTruthy (extract_ast E x) then
        xs.countP (fun y => pyTruthy (extract_ast E y))
      else 0 := by
  rw [List.filterMap_map]
  induction xs with
  | nil => simp
  | cons y ys ih =>
    rw [List.filterMap_cons]
    by_cases hx : pyTruthy (extract_ast E x) = true <;>
      by_cases hy : pyTruthy (extract_ast E y) = true
    · rw [show ((fun pr => comparePair E gedO pr.1 pr.2) ∘ fun y => (x, y)) y =
          comparePair E gedO x y from rfl,
        comparePair_pos (by simp [hx, hy])]
      simp only [Function.comp] at ih ⊢
      simp [ih, hx, hy, List.countP_cons]
    · rw [show ((fun pr => comparePair E gedO pr.1 pr.2) ∘ fun y => (x, y)) y =
          comparePair E gedO x y from rfl,
        comparePair_neg (by simp [hy])]
      simp only [Function.comp] at ih ⊢
      simp [ih, hx, hy, List.countP_cons]
    · rw [show ((fun pr => comparePair E gedO pr.1 pr.2) ∘ fun y => (x, y)) y =
          comparePair E gedO x y from rfl,
        comparePair_neg (by simp [hx])]
      simp only [Function.comp] at ih ⊢
      simp [ih, hx, hy, List.countP_cons]
    · rw [show ((fun pr => comparePair E gedO pr.1 pr.2) ∘ fun y => (x, y)) y =
          comparePair E gedO x y from rfl,
        comparePair_neg (by simp [hx])]
      simp only [Function.comp] at ih ⊢
      simp [ih, hx, hy, List.countP_cons]

/-- The number of collected pairs is `C(k, 2)` where `k` is the number of
files whose extracted AST is truthy. -/
theorem compare_contracts_length (E : Extractor) (gedO : Graph → Graph → Option Nat) :
    ∀ files : List String,
      (compare_contracts E gedO files).length =
        Nat.choose (files.countP (fun f => pyTruthy (extract_ast E f))) 2 := by
  intro files
  induction files with
  | nil => rfl
  | cons x xs ih =>
    unfold compare_contracts at ih ⊢
    simp only [allPairs, List.filterMap_append, List.length_append]
    rw [filterMap_comparePair_head, ih, List.countP_cons]
    by_cases hx : pyTruthy (extract_ast E x) = true
    · rw [if_pos hx, if_pos hx]
      have h0 := Nat.choose_succ_succ
        (xs.countP (fun f => pyTruthy (extract_ast E f))) 1
      rw [Nat.choose_one_right] at h0
      have hcs : Nat.choose ((xs.countP (fun f => pyTruthy (extract_ast E f))) + 1) 2 =
          (xs.countP (fun f => pyTruthy (extract_ast E f))) +
            Nat.choose (xs.countP (fun f => pyTruthy (extract_ast E f))) 2 := h0
      omega
    · rw [if_neg hx, if_neg hx]
      simp

/-- Which pairs appear in the results does not depend on the edit-distance
oracle: a scoring failure never removes a pair. -/
theorem compare_contracts_pairs_indep (E : Extractor)
    (g1 g2 : Graph → Graph → Option Nat) (files : List String) :
    (compare_contracts E g1 files).map (fun e => (e.contract_1, e.contract_2)) =
      (compare_contracts E g2 files).map (fun e => (e.contract_1, e.contract_2)) := by
  unfold compare_contracts
  induction allPairs files with
  | nil => rfl
  | cons pr rest ih =>
    rw [List.filterMap_cons, List.filterMap_cons]
    by_cases hc : pyTruthy (extract_ast E pr.1) && pyTruthy (extract_ast E pr.2)
    · rw [comparePair_pos hc, comparePair_pos hc]
      simpa using ih
    · rw [comparePair_neg hc, comparePair_neg hc]
      exact ih

/-- The instrumented loop performs two AST extractions and two CFG
extractions for every pair. -/
theorem compare_contracts_traced_counts (E : Extractor)
    (gedO : Graph → Graph → Option Nat) (files : List String) :
    (compare_contracts_traced E gedO files).2.1 = 2 * (allPairs files).length ∧
      (compare_contracts_traced E gedO files).2.2 = 2 * (allPairs files).length := by
  unfold compare_contracts_traced
  have key : ∀ (l : List (String × String)) (st : List Entry × Nat × Nat),
      (l.foldl
        (fun st pr =>
          let astCalls := st.2.1 + 2
          let cfgCalls := st.2.2 + 2
          match comparePair E gedO pr.1 pr.2 with
          | some e => (st.1 ++ [e], astCalls, cfgCalls)
          | none => (st.1, astCalls, cfgCalls)) st).2 =
        (st.2.1 + 2 * l.length, st.2.2 + 2 * l.length) := by
    intro l
    induction l with
    | nil => intro st; simp
    | cons pr rest ih =>
      intro st
      rw [List.foldl_cons]
      cases hcp : comparePair E gedO pr.1 pr.2 with
      | none =>
        simp only [hcp, ih, List.length_cons, Prod.mk.injEq]
        exact ⟨by omega, by omega⟩
      | some e =>
        simp only [hcp, ih, List.length_cons, Prod.mk.injEq]
        exact ⟨by omega, by omega⟩
  have h := key (allPairs files) ([], 0, 0)
  constructor
  · have := congrArg Prod.fst h
    simpa using this
  · have := congrArg Prod.snd h
    simpa using this

/-! ## File discovery and the entry script -/

/-- The filesystem boundary: `os.path.isdir` and `os.walk` (for a
nonexistent or non-directory root, `os.walk` with the default
`onerror=None` yields no entries at all). -/
structure FileSys where
  isDir : String → Bool
  walk : String → List (String × List String)

def solExt : String := ".sol"

/-- `SolidityComparator._get_contract_files`: walk the folder recursively and
collect every filename ending in `.sol`, joined to its directory. -/
def get_contract_files (fs : FileSys) (root : String) : List String :=
  (fs.walk root).flatMap
    (fun e => (e.2.filter (fun f => f.endsWith solExt)).map (fun f => e.1 ++ "/" ++ f))

/-- The entry point (`measure_contracts_similarity.main` and the `__main__`
block): check `os.path.isdir` first and abort with a console message —
returning `none`, raising nothing — when it fails; otherwise discover and
compare. -/
def measureMain (E : Extractor) (gedO : Graph → Graph → Option Nat)
    (fs : FileSys) (root : String) : Option (List Entry) :=
  if fs.isDir root then
    some (compare_contracts E gedO (get_contract_files fs root))
  else none

/-! ## The derived similarity matrix (`plot_similarity_heatmap`) -/

/-- `similarity_matrix[i][j] = v`. -/
def setCell (m : List (List ℚ)) (i j : Nat) (v : ℚ) : List (List ℚ) :=
  m.set i ((m.getD i []).set j v)

/-- Read a matrix cell (out-of-range reads default to `0`). -/
def cell (m : List (List ℚ)) (i j : Nat) : ℚ := (m.getD i []).getD j 0

/-- One result overwrites its two mirror cells
(`similarity_matrix[i][j] = similarity_matrix[j][i] = similarity`), indices
resolved through `contract_index`. -/
def matrixStep (contracts : List String) (m : List (List ℚ)) (r : Entry) :
    List (List ℚ) :=
  setCell
    (setCell m (contracts.indexOf r.contract_1)
      (contracts.indexOf r.contract_2) r.similarity)
    (contracts.indexOf r.contract_2) (contracts.indexOf r.contract_1)
    r.similarity

/-- The heatmap matrix: every cell initialized to `1.0`, then each result
overwrites its own pair of cells symmetrically. -/
def similarity_matrix (contracts : List String) (results : List Entry) :
    List (List ℚ) :=
  results.foldl (matrixStep contracts)
    (List.replicate contracts.length (List.replicate contracts.length 1))

/-- An `n × n` matrix of rows. -/
def Squared (n : Nat) (m : List (List ℚ)) : Prop :=
  m.length = n ∧ ∀ a, a < n → (m.getD a []).length = n

theorem cell_replicate (n : Nat) (a b : Nat) :
    cell (List.replicate n (List.replicate n (1 : ℚ))) a b =
      if a < n ∧ b < n then 1 else 0 := by
  unfold cell
  simp only [List.getD_eq_getElem?_getD, List.getElem?_replicate]
  by_cases ha : a < n <;> by_cases hb : b < n <;>
    simp [ha, hb, List.getElem?_replicate]

theorem squared_replicate (n : Nat) :
    Squared n (List.replicate n (List.replicate n (1 : ℚ))) := by
  constructor
  · exact List.length_replicate _ _
  · intro a ha
    simp only [List.getD_eq_getElem?_getD, List.getElem?_replicate, if_pos ha]
    simp

theorem squared_setCell {n : Nat} {m : List (List ℚ)} (hm : Squared n m)
    (i j : Nat) (v : ℚ) : Squared n (setCell m i j v) := by
  obtain ⟨hlen, hrow⟩ := hm
  constructor
  · rw [setCell, List.length_set, hlen]
  · intro a ha
    unfold setCell
    simp only [List.getD_eq_getElem?_getD]
    by_cases hai : a = i
    · subst hai
      rw [List.getElem?_set_self (by omega)]
      simp only [Option.getD_some, List.length_set]
      have hr := hrow a ha
      rw [List.getD_eq_getElem?_getD] at hr
      exact hr
    · rw [List.getElem?_set_ne (fun h => hai h.symm)]
      have hr := hrow a ha
      rw [List.getD_eq_getElem?_getD] at hr
      exact hr

theorem cell_setCell_same {n : Nat} {m : List (List ℚ)} (hm : Squared n m)
    {i j : Nat} (hi : i < n) (hj : j < n) (v : ℚ) :
    cell (setCell m i j v) i j = v := by
  obtain ⟨hlen, hrow⟩ := hm
  unfold cell setCell
  simp only [List.getD_eq_getElem?_getD]
  rw [List.getElem?_set_self (by omega)]
  simp only [Option.getD_some]
  have hr := hrow i hi
  rw [List.getD_eq_getElem?_getD] at hr
  rw [List.getElem?_set_self (by rw [hr]; omega)]
  rfl

theorem cell_setCell_other {m : List (List ℚ)}
    {i j a b : Nat} (h : a ≠ i ∨ b ≠ j) (v : ℚ) :
    cell (setCell m i j v) a b = cell m a b := by
  unfold cell setCell
  simp only [List.getD_eq_getElem?_getD]
  by_cases hai : a = i
  · subst hai
    have hbj : b ≠ j := h.resolve_left (fun hc => hc rfl)
    by_cases hrange : a < m.length
    · rw [List.getElem?_set_self hrange]
      simp only [Option.getD_some]
      rw [List.getElem?_set_ne (fun hc => hbj hc.symm)]
    · have hset : m.set a ((m[a]?.getD []).set j v) = m :=
        List.set_eq_of_length_le (by omega)
      rw [hset]
  · rw [List.getElem?_set_ne (fun hc => hai hc.symm)]

theorem matrixStep_squared {contracts : List String} {m : List (List ℚ)}
    (hsq : Squared contracts.length m) (r : Entry) :
    Squared contracts.length (matrixStep contracts m r) :=
  squared_setCell (squared_setCell hsq _ _ _) _ _ _

/-- A `matrixStep` with in-range indices `i < j` keeps the matrix
symmetric. -/
theorem matrixStep_symm {contracts : List String} {m : List (List ℚ)}
    (hsq : Squared contracts.length m)
    (hsym : ∀ a b, cell m a b = cell m b a) (r : Entry)
    (hij : contracts.indexOf r.contract_1 < contracts.indexOf r.contract_2)
    (hjn : contracts.indexOf r.contract_2 < contracts.length) :
    ∀ a b, cell (matrixStep contracts m r) a b = cell (matrixStep contracts m r) b a := by
  intro a b
  have hin : contracts.indexOf r.contract_1 < contracts.length := lt_trans hij hjn
  have hne : contracts.indexOf r.contract_1 ≠ contracts.indexOf r.contract_2 :=
    Nat.ne_of_lt hij
  set i := contracts.indexOf r.contract_1 with hidef
  set j := contracts.indexOf r.contract_2 with hjdef
  have hsq1 : Squared contracts.length (setCell m i j r.similarity) :=
    squared_setCell hsq _ _ _
  unfold matrixStep
  rw [← hidef, ← hjdef]
  by_cases hab1 : a = i ∧ b = j
  · obtain ⟨rfl, rfl⟩ := hab1
    rw [cell_setCell_other (Or.inl hne), cell_setCell_same hsq hin hjn,
      cell_setCell_same hsq1 hjn hin]
  · by_cases hab2 : a = j ∧ b = i
    · obtain ⟨rfl, rfl⟩ := hab2
      rw [cell_setCell_same hsq1 hjn hin, cell_setCell_other (Or.inl hne),
        cell_setCell_same hsq hin hjn]
    · have hL : cell (setCell (setCell m i j r.similarity) j i r.similarity) a b =
          cell m a b := by
        rw [cell_setCell_other, cell_setCell_other]
        · by_cases ha : a = i
          · exact Or.inr (fun hb => hab1 ⟨ha, hb⟩)
          · exact Or.inl ha
        · by_cases ha : a = j
          · exact Or.inr (fun hb => hab2 ⟨ha, hb⟩)
          · exact Or.inl ha
      have hR : cell (setCell (setCell m i j r.similarity) j i r.similarity) b a =
          cell m b a := by
        rw [cell_setCell_other, cell_setCell_other]
        · by_cases hb : b = i
          · exact Or.inr (fun ha => hab2 ⟨ha, hb⟩)
          · exact Or.inl hb
        · by_cases hb : b = j
          · exact Or.inr (fun ha => hab1 ⟨ha, hb⟩)
          · exact Or.inl hb
      rw [hL, hR]
      exact hsym a b

/-- A `matrixStep` leaves any cell pair it does not name unchanged. -/
theorem matrixStep_untouched {contracts : List String} {m : List (List ℚ)}
    (r : Entry) {a b : Nat}
    (h1 : ¬ (contracts.indexOf r.contract_1 = a ∧ contracts.indexOf r.contract_2 = b))
    (h2 : ¬ (contracts.indexOf r.contract_1 = b ∧ contracts.indexOf r.contract_2 = a)) :
    cell (matrixStep contracts m r) a b = cell m a b := by
  unfold matrixStep
  rw [cell_setCell_other, cell_setCell_other]
  · by_cases ha : a = contracts.indexOf r.contract_1
    · exact Or.inr (fun hb => h1 ⟨ha.symm, hb.symm⟩)
    · exact Or.inl ha
  · by_cases ha : a = contracts.indexOf r.contract_2
    · exact Or.inr (fun hb => h2 ⟨hb.symm, ha.symm⟩)
    · exact Or.inl ha

/-- Fold invariant of the heatmap construction: shape, symmetry, and
untouched cells. -/
theorem matrix_fold_props (contracts : List String) :
    ∀ (rs : List Entry) (m : List (List ℚ)),
      Squared contracts.length m →
      (∀ a b, cell m a b = cell m b a) →
      (∀ r ∈ rs, contracts.indexOf r.contract_1 < contracts.indexOf r.contract_2 ∧
        contracts.indexOf r.contract_2 < contracts.length) →
      Squared contracts.length (rs.foldl (matrixStep contracts) m) ∧
      (∀ a b, cell (rs.foldl (matrixStep contracts) m) a b =
        cell (rs.foldl (matrixStep contracts) m) b a) ∧
      (∀ a b,
        (∀ r ∈ rs,
          ¬ (contracts.indexOf r.contract_1 = a ∧ contracts.indexOf r.contract_2 = b) ∧
          ¬ (contracts.indexOf r.contract_1 = b ∧ contracts.indexOf r.contract_2 = a)) →
        cell (rs.foldl (matrixStep contracts) m) a b = cell m a b) := by
  intro rs
  induction rs with
  | nil =>
    intro m hsq hsym _
    exact ⟨hsq, hsym, fun a b _ => rfl⟩
  | cons r rest ih =>
    intro m hsq hsym hrs
    obtain ⟨hij, hjn⟩ := hrs r (List.mem_cons_self _ _)
    have hrest : ∀ r' ∈ rest,
        contracts.indexOf r'.contract_1 < contracts.indexOf r'.contract_2 ∧
        contracts.indexOf r'.contract_2 < contracts.length :=
      fun r' hr' => hrs r' (List.mem_cons_of_mem _ hr')
    have hsq' := matrixStep_squared hsq r
    have hsym' := matrixStep_symm hsq hsym r hij hjn
    obtain ⟨s1, s2, s3⟩ := ih (matrixStep contracts m r) hsq' hsym' hrest
    rw [List.foldl_cons]
    refine ⟨s1, s2, ?_⟩
    intro a b hnone
    rw [s3 a b (fun r' hr' => hnone r' (List.mem_cons_of_mem _ hr'))]
    obtain ⟨h1, h2⟩ := hnone r (List.mem_cons_self _ _)
    exact matrixStep_untouched r h1 h2

/-- Entries of `compare_contracts` reference indices `i < j < n` when the
file list has no duplicates. -/
theorem compare_contracts_indices (E : Extractor) (gedO : Graph → Graph → Option Nat)
    {contracts : List String} (hnd : contracts.Nodup) :
    ∀ r ∈ compare_contracts E gedO contracts,
      contracts.indexOf r.contract_1 < contracts.indexOf r.contract_2 ∧
        contracts.indexOf r.contract_2 < contracts.length := by
  intro r hr
  obtain ⟨hpair, _, _⟩ := mem_compare_contracts hr
  obtain ⟨hm1, hm2⟩ := mem_allPairs contracts _ hpair
  exact ⟨allPairs_indexOf_lt contracts hnd _ hpair, List.indexOf_lt_length.2 hm2⟩

/-- No entry of `compare_contracts` can reference the index of a file whose
extracted AST is falsy. -/
theorem compare_contracts_avoids_falsy (E : Extractor)
    (gedO : Graph → Graph → Option Nat) {contracts : List String} {p : Nat}
    (hfalsy : pyTruthy (extract_ast E (contracts.getD p (""))) = false) :
    ∀ r ∈ compare_contracts E gedO contracts,
      contracts.indexOf r.contract_1 ≠ p ∧ contracts.indexOf r.contract_2 ≠ p := by
  intro r hr
  obtain ⟨hpair, ht1, ht2⟩ := mem_compare_contracts hr
  obtain ⟨hm1, hm2⟩ := mem_allPairs contracts _ hpair
  constructor
  · intro hip
    have hlt : contracts.indexOf r.contract_1 < contracts.length :=
      List.indexOf_lt_length.2 hm1
    have heq : contracts.getD p ("") = r.contract_1 := by
      rw [← hip, List.getD_eq_getElem?_getD, List.getElem?_eq_getElem hlt]
      exact List.getElem_indexOf hlt
    rw [heq, ht1] at hfalsy
    cases hfalsy
  · intro hip
    have hlt : contracts.indexOf r.contract_2 < contracts.length :=
      List.indexOf_lt_length.2 hm2
    have heq : contracts.getD p ("") = r.contract_2 := by
      rw [← hip, List.getD_eq_getElem?_getD, List.getElem?_eq_getElem hlt]
      exact List.getElem_indexOf hlt
    rw [heq, ht2] at hfalsy
    cases hfalsy

/-- The three heatmap facts: unit diagonal, symmetry, and excluded pairs kept
at the initialization value `1.0`. -/
theorem similarity_matrix_props (E : Extractor) (gedO : Graph → Graph → Option Nat)
    (contracts : List String) (hnd : contracts.Nodup) :
    (∀ i, i < contracts.length →
      cell (similarity_matrix contracts (compare_contracts E gedO contracts)) i i = 1) ∧
    (∀ a b,
      cell (similarity_matrix contracts (compare_contracts E gedO contracts)) a b =
        cell (similarity_matrix contracts (compare_contracts E gedO contracts)) b a) ∧
    (∀ p q, p < contracts.length → q < contracts.length →
      pyTruthy (extract_ast E (contracts.getD p (""))) = false →
      cell (similarity_matrix contracts (compare_contracts E gedO contracts)) p q = 1 ∧
      cell (similarity_matrix contracts (compare_contracts E gedO contracts)) q p = 1) := by
  have hbase_sym : ∀ a b,
      cell (List.replicate contracts.length (List.replicate contracts.length (1 : ℚ))) a b =
        cell (List.replicate contracts.length (List.replicate contracts.length (1 : ℚ))) b a := by
    intro a b
    rw [cell_replicate, cell_replicate]
    by_cases ha : a < contracts.length <;> by_cases hb : b < contracts.length <;>
      simp [ha, hb]
  obtain ⟨hsq, hsym, huntouched⟩ := matrix_fold_props contracts
    (compare_contracts E gedO contracts)
    (List.replicate contracts.length (List.replicate contracts.length 1))
    (squared_replicate _) hbase_sym (compare_contracts_indices E gedO hnd)
  refine ⟨?_, hsym, ?_⟩
  · intro i hi
    have h := huntouched i i (fun r hr => ?_)
    · rw [similarity_matrix, h, cell_replicate, if_pos ⟨hi, hi⟩]
    · obtain ⟨hij, _⟩ := compare_contracts_indices E gedO hnd r hr
      exact ⟨fun hc => absurd (hc.1.trans hc.2.symm) (Nat.ne_of_lt hij),
        fun hc => absurd (hc.1.trans hc.2.symm) (Nat.ne_of_lt hij)⟩
  · intro p q hp hq hfalsy
    have hkey := compare_contracts_avoids_falsy E gedO hfalsy
    constructor
    · have h := huntouched p q (fun r hr =>
        ⟨fun hc => (hkey r hr).1 hc.1, fun hc => (hkey r hr).2 hc.2⟩)
      rw [similarity_matrix, h, cell_replicate, if_pos ⟨hp, hq⟩]
    · have h := huntouched q p (fun r hr =>
        ⟨fun hc => (hkey r hr).2 hc.2, fun hc => (hkey r hr).1 hc.1⟩)
      rw [similarity_matrix, h, cell_replicate, if_pos ⟨hq, hp⟩]

/-! ## Unfolding helpers for the similarity match -/

/-- Successful edit-distance computation: the code's normalization branch. -/
theorem cfg_similarity_of_some {gedO : Graph → Graph → Option Nat} {c1 c2 : Cfg}
    {d : Nat} (h : gedO (cfg_to_networkx c1) (cfg_to_networkx c2) = some d) :
    cfg_similarity gedO c1 c2 =
      if max (cfg_to_networkx c1).size (cfg_to_networkx c2).size = 0 then 1
      else 1 - (d : ℚ) /
        ((max (cfg_to_networkx c1).size (cfg_to_networkx c2).size : Nat) : ℚ) := by
  rw [cfg_similarity_def, h]

/-- A raising edit-distance computation scores `0.0`. -/
theorem cfg_similarity_of_none {gedO : Graph → Graph → Option Nat} {c1 c2 : Cfg}
    (h : gedO (cfg_to_networkx c1) (cfg_to_networkx c2) = none) :
    cfg_similarity gedO c1 c2 = 0 := by
  rw [cfg_similarity_def, h]

/-- A graph without nodes has no edges either. -/
theorem cfg_to_networkx_edges_nil {c : Cfg}
    (h : (cfg_to_networkx c).nodes.length = 0) : (cfg_to_networkx c).edges = [] := by
  have hwf := cfg_to_networkx_wf c
  cases he : (cfg_to_networkx c).edges with
  | nil => rfl
  | cons e r =>
    have hmem : e ∈ (cfg_to_networkx c).edges := he ▸ List.mem_cons_self _ _
    obtain ⟨h1, _⟩ := hwf e hmem
    have := List.length_pos.2 (List.ne_nil_of_mem h1)
    omega

/-! ## Concrete fixtures -/

/-- A truthy one-key AST dict, serialized `{"k": "x"}`. -/
def astK : Json := Json.obj [("k", Json.str ("x"))]

/-- Serialized `{"k": "ab"}`. -/
def astA : Json := Json.obj [("k", Json.str ("ab"))]

/-- Serialized `{"k": "bakba"}`. -/
def astB : Json := Json.obj [("k", Json.str ("bakba"))]

/-- A one-node function CFG without edges (a trivial body). -/
def cfgP : Cfg := ⟨[0], []⟩

/-- Two nodes, one control-flow edge. -/
def cfgQ : Cfg := ⟨[0, 1], [(0, 1)]⟩

/-- Three nodes in a path. -/
def cfgR : Cfg := ⟨[0, 1, 2], [(0, 1), (1, 2)]⟩

/-- Four nodes, a single edge. -/
def cfgS : Cfg := ⟨[0, 1, 2, 3], [(0, 1)]⟩

def fileA : String := "a.sol"
def fileB : String := "b.sol"
def fileC : String := "c.sol"

/-- Every file parses to the same truthy AST and an empty CFG list. -/
def extractorOK : Extractor := ⟨fun _ => some astK, fun _ => some []⟩

/-- AST extraction succeeds everywhere, CFG extraction raises on `fileA`. -/
def extractorCfgFail : Extractor :=
  ⟨fun _ => some astK, fun p => if p = fileA then none else some []⟩

/-- Slither raises on every file. -/
def extractorFalsy : Extractor := ⟨fun _ => none, fun _ => none⟩

/-- A trivially symmetric edit-distance oracle. -/
def gedZero : Graph → Graph → Option Nat := fun _ _ => some 0

/-- An edit-distance oracle that always raises. -/
def gedFail : Graph → Graph → Option Nat := fun _ _ => none

theorem simPQ : cfg_similarity nxGed cfgP cfgQ = -1 := by
  rw [cfg_similarity_of_some
    (by decide : nxGed (cfg_to_networkx cfgP) (cfg_to_networkx cfgQ) = some 2)]
  rw [if_neg (by decide),
    (by decide : max (cfg_to_networkx cfgP).size (cfg_to_networkx cfgQ).size = 1)]
  norm_num

theorem simQP : cfg_similarity nxGed cfgQ cfgP = -1 := by
  rw [cfg_similarity_of_some
    (by decide : nxGed (cfg_to_networkx cfgQ) (cfg_to_networkx cfgP) = some 2)]
  rw [if_neg (by decide),
    (by decide : max (cfg_to_networkx cfgQ).size (cfg_to_networkx cfgP).size = 1)]
  norm_num

theorem simPR : cfg_similarity nxGed cfgP cfgR = -1 := by
  rw [cfg_similarity_of_some
    (by decide : nxGed (cfg_to_networkx cfgP) (cfg_to_networkx cfgR) = some 4)]
  rw [if_neg (by decide),
    (by decide : max (cfg_to_networkx cfgP).size (cfg_to_networkx cfgR).size = 2)]
  norm_num

theorem simPS : cfg_similarity nxGed cfgP cfgS = -3 := by
  rw [cfg_similarity_of_some
    (by decide : nxGed (cfg_to_networkx cfgP) (cfg_to_networkx cfgS) = some 4)]
  rw [if_neg (by decide),
    (by decide : max (cfg_to_networkx cfgP).size (cfg_to_networkx cfgS).size = 1)]
  norm_num

set_option maxRecDepth 8192 in
theorem astAB : ast_similarity astA astB = 22 / 25 := by
  unfold ast_similarity ratioChars
  rw [(by decide : matchTotal (dumps astA).data (dumps astB).data = 11),
    (by decide : (dumps astA).data.length = 11),
    (by decide : (dumps astB).data.length = 14)]
  norm_num

set_option maxRecDepth 8192 in
theorem astBA : ast_similarity astB astA = 4 / 5 := by
  unfold ast_similarity ratioChars
  rw [(by decide : matchTotal (dumps astB).data (dumps astA).data = 10),
    (by decide : (dumps astB).data.length = 14),
    (by decide : (dumps astA).data.length = 11)]
  norm_num

/-- The per-pair normalization as the specification words it: divide by the
larger NODE count (the code divides by `Graph.size`, the edge count). -/
def specNodeNormalizedSimilarity (c1 c2 : Cfg) : ℚ :=
  if max (cfg_to_networkx c1).nodes.length (cfg_to_networkx c2).nodes.length = 0 then 1
  else 1 - ((graph_edit_distance (cfg_to_networkx c1) (cfg_to_networkx c2) : Nat) : ℚ) /
    ((max (cfg_to_networkx c1).nodes.length (cfg_to_networkx c2).nodes.length : Nat) : ℚ)

/-! ## Claim theorems -/

/-- C1 (counterexample): comparing a contract with itself does not always
score `1.0`: with the two structurally different CFGs `cfgP` and `cfgQ`, the
cross-product aggregate over the contract's own CFG sequence paired with
itself is `0`, and the combined score is `1/2`, although the AST is byte
identical and truthy. -/
theorem claimC1_counterexample :
    pyTruthy astK = true ∧
      cfg_aggregate nxGed [cfgP, cfgQ] [cfgP, cfgQ] = 0 ∧
      compute_similarity nxGed astK astK [cfgP, cfgQ] [cfgP, cfgQ] = 1 / 2 := by
  have hagg : cfg_aggregate nxGed [cfgP, cfgQ] [cfgP, cfgQ] = 0 := by
    rw [cfg_aggregate_eq_spec]
    unfold specCfgAggregate
    rw [if_neg (by simp)]
    simp only [List.flatMap_cons, List.flatMap_nil, List.map_cons, List.map_nil,
      List.append_nil, List.sum_cons, List.sum_nil, List.length_cons,
      List.length_nil]
    rw [cfg_similarity_self, simPQ, simQP, cfg_similarity_self]
    norm_num
  refine ⟨by decide, hagg, ?_⟩
  unfold compute_similarity
  rw [ast_similarity_self, hagg]
  norm_num

/-- C1 (amended): for a contract whose AST extraction succeeds, comparing it
with itself (or a byte-identical copy, which extracts to the same artifacts)
gives `ast_score = 1.0` always; `cfg_score = 1.0` and `combined_score = 1.0`
are guaranteed when the contract has at most one CFG, but not in general —
with two or more structurally different CFGs the cross-product aggregate
falls below `1.0`. -/
theorem claimC1_amended (ast : Json) (cfgs : List Cfg)
    (ht : pyTruthy ast = true) :
    ast_similarity ast ast = 1 ∧
      (cfgs.length ≤ 1 →
        cfg_aggregate nxGed cfgs cfgs = 1 ∧
          compute_similarity nxGed ast ast cfgs cfgs = 1) := by
  have _ := ht
  refine ⟨ast_similarity_self ast, fun hlen => ?_⟩
  have hagg := cfg_aggregate_self_short cfgs hlen
  refine ⟨hagg, ?_⟩
  unfold compute_similarity
  rw [ast_similarity_self, hagg]
  norm_num

theorem claimC1_witness :
    pyTruthy astK = true ∧ (([cfgP] : List Cfg).length ≤ 1) ∧
      ast_similarity astK astK = 1 ∧
      cfg_aggregate nxGed [cfgP] [cfgP] = 1 ∧
      compute_similarity nxGed astK astK [cfgP] [cfgP] = 1 :=
  ⟨by decide, by decide,
    (claimC1_amended astK [cfgP] (by decide)).1,
    ((claimC1_amended astK [cfgP] (by decide)).2 (by decide)).1,
    ((claimC1_amended astK [cfgP] (by decide)).2 (by decide)).2⟩

/-- C2 (counterexample): scores are NOT bounded below by `0`: a single-pair
CFG similarity of `-1`, an aggregate of `-3`, and a combined score of `-1`
all arise with realistic trivial CFGs, because the edit distance can exceed
the larger edge count that the code normalizes by. -/
theorem claimC2_counterexample :
    cfg_similarity nxGed cfgP cfgQ < 0 ∧
      cfg_aggregate nxGed [cfgP] [cfgS] < 0 ∧
      compute_similarity nxGed astK astK [cfgP] [cfgS] < 0 := by
  have hagg : cfg_aggregate nxGed [cfgP] [cfgS] = -3 := by
    rw [cfg_aggregate_eq_spec]
    unfold specCfgAggregate
    rw [if_neg (by simp)]
    simp only [List.flatMap_cons, List.flatMap_nil, List.map_cons, List.map_nil,
      List.append_nil, List.sum_cons, List.sum_nil, List.length_cons,
      List.length_nil]
    rw [simPS]
    norm_num
  refine ⟨by rw [simPQ]; norm_num, by rw [hagg]; norm_num, ?_⟩
  unfold compute_similarity
  rw [ast_similarity_self, hagg]
  norm_num

/-- C2 (amended): the AST score lies in `[0, 1]` and every score is bounded
above by `1`; the lower bound `0` fails for the CFG-derived scores. -/
theorem claimC2_amended (a1 a2 : Json) (gedO : Graph → Graph → Option Nat)
    (c1 c2 : Cfg) (l1 l2 : List Cfg) :
    0 ≤ ast_similarity a1 a2 ∧ ast_similarity a1 a2 ≤ 1 ∧
      cfg_similarity gedO c1 c2 ≤ 1 ∧ cfg_aggregate gedO l1 l2 ≤ 1 ∧
      compute_similarity gedO a1 a2 l1 l2 ≤ 1 :=
  ⟨ast_similarity_nonneg _ _, ast_similarity_le_one _ _,
    cfg_similarity_le_one _ _ _, cfg_aggregate_le_one _ _ _,
    compute_similarity_le_one _ _ _ _ _⟩

/-- C3 (counterexample): the code normalizes by `Graph.size()`, the EDGE
count, not the node count: on `cfgP` (one node, no edge) against `cfgR`
(three nodes, two edges) the edit distance is `4`, the code returns
`1 - 4/2 = -1`, while the node-count normalization stated by the
specification would give `1 - 4/3 = -1/3`. -/
theorem claimC3_counterexample :
    cfg_similarity nxGed cfgP cfgR = -1 ∧
      specNodeNormalizedSimilarity cfgP cfgR = -1 / 3 ∧
      cfg_similarity nxGed cfgP cfgR ≠ specNodeNormalizedSimilarity cfgP cfgR := by
  have h2 : specNodeNormalizedSimilarity cfgP cfgR = -1 / 3 := by
    unfold specNodeNormalizedSimilarity
    rw [if_neg (by decide),
      (by decide : graph_edit_distance (cfg_to_networkx cfgP) (cfg_to_networkx cfgR) = 4),
      (by decide :
        max (cfg_to_networkx cfgP).nodes.length (cfg_to_networkx cfgR).nodes.length = 3)]
    norm_num
  refine ⟨simPR, h2, ?_⟩
  rw [simPR, h2]
  norm_num

/-- C3 (amended): for a successfully computed distance `d` the similarity is
`1 - d / max(E1, E2)` over the EDGE counts (`Graph.size`), with `1.0` when
both edge counts are zero; in particular two graphs with zero nodes (hence
zero edges) score `1.0`. -/
theorem claimC3_amended (gedO : Graph → Graph → Option Nat) (c1 c2 : Cfg) (d : Nat)
    (h : gedO (cfg_to_networkx c1) (cfg_to_networkx c2) = some d) :
    cfg_similarity gedO c1 c2 =
      (if max (cfg_to_networkx c1).size (cfg_to_networkx c2).size = 0 then 1
       else 1 - (d : ℚ) /
         ((max (cfg_to_networkx c1).size (cfg_to_networkx c2).size : Nat) : ℚ)) ∧
    ((cfg_to_networkx c1).nodes.length = 0 → (cfg_to_networkx c2).nodes.length = 0 →
      cfg_similarity gedO c1 c2 = 1) := by
  refine ⟨cfg_similarity_of_some h, fun h1 h2 => ?_⟩
  rw [cfg_similarity_of_some h]
  rw [if_pos ?_]
  have e1 := cfg_to_networkx_edges_nil h1
  have e2 := cfg_to_networkx_edges_nil h2
  unfold Graph.size
  rw [e1, e2]
  rfl

theorem claimC3_witness :
    nxGed (cfg_to_networkx cfgP) (cfg_to_networkx cfgP) = some 0 ∧
      cfg_similarity nxGed cfgP cfgP =
        (if max (cfg_to_networkx cfgP).size (cfg_to_networkx cfgP).size = 0 then 1
         else 1 - ((0 : Nat) : ℚ) /
           ((max (cfg_to_networkx cfgP).size (cfg_to_networkx cfgP).size : Nat) : ℚ)) :=
  ⟨by decide, (claimC3_amended nxGed cfgP cfgP 0 (by decide)).1⟩

/-- C4 (counterexample): a contract whose CFG extraction fails is NOT removed
from the comparisons: with two files whose ASTs extract, `fileA`'s CFG
extraction raising (caught, yielding `[]`) still leaves the pair in the
result set, so the result set has one element instead of the zero the claim
requires. -/
theorem claimC4_counterexample :
    extractorCfgFail.cfgRaw fileA = none ∧
      extract_cfg extractorCfgFail fileA = [] ∧
      (compare_contracts extractorCfgFail nxGed [fileA, fileB]).length = 1 := by
  refine ⟨by decide, ?_, by decide⟩
  unfold extract_cfg extractorCfgFail
  simp

/-- C4 (amended): only a falsy extracted AST excludes a contract: the result
set has exactly `C(k, 2)` entries where `k` counts the files with truthy
extracted AST (so one unparsable file among `n` leaves `C(n-1, 2)` pairs); a
raising CFG extraction is caught into the empty list and does not exclude,
while a raising AST extraction yields the falsy empty dict and does. -/
theorem claimC4_amended (E : Extractor) (gedO : Graph → Graph → Option Nat)
    (files : List String) :
    ((compare_contracts E gedO files).length =
      Nat.choose (files.countP (fun f => pyTruthy (extract_ast E f))) 2) ∧
    (∀ f, E.cfgRaw f = none → extract_cfg E f = []) ∧
    (∀ f, E.astRaw f = none → pyTruthy (extract_ast E f) = false) := by
  refine ⟨compare_contracts_length E gedO files, fun f hf => ?_, fun f hf => ?_⟩
  · unfold extract_cfg
    rw [hf]
    rfl
  · unfold extract_ast
    rw [hf]
    rfl

theorem claimC4_witness :
    (compare_contracts extractorCfgFail nxGed [fileA, fileB]).length =
      Nat.choose
        (List.countP (fun f => pyTruthy (extract_ast extractorCfgFail f))
          [fileA, fileB]) 2 ∧
      extract_cfg extractorCfgFail fileA = [] :=
  ⟨(claimC4_amended extractorCfgFail nxGed [fileA, fileB]).1,
    (claimC4_amended extractorCfgFail nxGed [fileA, fileB]).2.1 fileA (by decide)⟩

/-- C5: the combined score is the mean of the AST score and the aggregate CFG
score, where the loop-computed aggregate equals the arithmetic mean over the
full cross product of the two CFG sequences and defaults to `1.0` when either
sequence is empty. -/
theorem claimC5 (gedO : Graph → Graph → Option Nat) (ast1 ast2 : Json)
    (cfgs1 cfgs2 : List Cfg) :
    compute_similarity gedO ast1 ast2 cfgs1 cfgs2 =
      (ast_similarity ast1 ast2 + specCfgAggregate gedO cfgs1 cfgs2) / 2 ∧
    (cfgs1 = [] ∨ cfgs2 = [] → cfg_aggregate gedO cfgs1 cfgs2 = 1) := by
  constructor
  · unfold compute_similarity
    rw [cfg_aggregate_eq_spec]
  · exact cfg_aggregate_nil gedO cfgs1 cfgs2

theorem claimC5_witness :
    compute_similarity nxGed astK astK ([] : List Cfg) ([] : List Cfg) =
      (ast_similarity astK astK + specCfgAggregate nxGed [] []) / 2 ∧
      cfg_aggregate nxGed ([] : List Cfg) ([] : List Cfg) = 1 :=
  ⟨(claimC5 nxGed astK astK [] []).1,
    (claimC5 nxGed astK astK [] []).2 (Or.inl rfl)⟩

/-- C6 (counterexample): the combined score is not symmetric: on the AST
dicts serializing to `{"k": "ab"}` and `{"k": "bakba"}` the
`SequenceMatcher` ratio is `22/25` in one order and `4/5` in the other, so
with empty CFG lists the two combined scores differ (`47/50` vs `9/10`). -/
theorem claimC6_counterexample :
    compute_similarity nxGed astA astB [] [] ≠
      compute_similarity nxGed astB astA [] [] := by
  unfold compute_similarity
  rw [cfg_aggregate_nil _ _ _ (Or.inl rfl), astAB, astBA]
  norm_num

/-- C6 (amended): the CFG aggregate is symmetric (for the symmetric edit
distance), and swapping the argument pairs changes the combined score by
exactly half the difference of the two `SequenceMatcher` ratio orders — which
is nonzero in general, so full symmetry fails. -/
theorem claimC6_amended (gedO : Graph → Graph → Option Nat)
    (hged : ∀ g1 g2, gedO g1 g2 = gedO g2 g1)
    (a1 a2 : Json) (l1 l2 : List Cfg) :
    cfg_aggregate gedO l1 l2 = cfg_aggregate gedO l2 l1 ∧
      compute_similarity gedO a1 a2 l1 l2 - compute_similarity gedO a2 a1 l2 l1 =
        (ast_similarity a1 a2 - ast_similarity a2 a1) / 2 :=
  ⟨cfg_aggregate_symm gedO hged l1 l2,
    compute_similarity_swap gedO hged a1 a2 l1 l2⟩

theorem claimC6_witness :
    cfg_aggregate gedZero [cfgP] [cfgQ] = cfg_aggregate gedZero [cfgQ] [cfgP] :=
  (claimC6_amended gedZero (fun _ _ => rfl) astK astK [cfgP] [cfgQ]).1

/-- C7: a raising edit-distance computation scores that CFG pair `0.0`
without propagating, and no per-pair failure removes a pair from the run: the
set of compared pairs is identical whatever the oracle does. -/
theorem claimC7 (E : Extractor) (gedO gedO2 : Graph → Graph → Option Nat)
    (files : List String) :
    (∀ c1 c2 : Cfg, gedO (cfg_to_networkx c1) (cfg_to_networkx c2) = none →
      cfg_similarity gedO c1 c2 = 0) ∧
    (compare_contracts E gedO files).map (fun e => (e.contract_1, e.contract_2)) =
      (compare_contracts E gedO2 files).map (fun e => (e.contract_1, e.contract_2)) :=
  ⟨fun _ _ h => cfg_similarity_of_none h,
    compare_contracts_pairs_indep E gedO gedO2 files⟩

theorem claimC7_witness :
    gedFail (cfg_to_networkx cfgP) (cfg_to_networkx cfgQ) = none ∧
      cfg_similarity gedFail cfgP cfgQ = 0 :=
  ⟨rfl, (claimC7 extractorOK gedFail nxGed [fileA, fileB]).1 cfgP cfgQ rfl⟩

/-- C8 (counterexample): no `NotFoundError` exists anywhere: on a filesystem
where the root is not a directory (so `os.walk` yields nothing), discovery
returns the ordinary empty list and the entry point returns normally after
its `isdir` guard — no error value, no exception. -/
theorem claimC8_counterexample :
    (FileSys.mk (fun _ => false) (fun _ => [])).isDir fileA = false ∧
      get_contract_files (FileSys.mk (fun _ => false) (fun _ => [])) fileA = [] ∧
      measureMain extractorOK nxGed (FileSys.mk (fun _ => false) (fun _ => [])) fileA =
        none :=
  ⟨rfl, rfl, rfl⟩

/-- C8 (amended): discovery never fails: an invalid root makes `os.walk`
yield nothing and `_get_contract_files` return `[]`, the entry script guards
with `os.path.isdir` and aborts with a console message (returning, not
raising), and a valid directory without `.sol` files also yields `[]` rather
than an error. -/
theorem claimC8_amended (E : Extractor) (gedO : Graph → Graph → Option Nat)
    (fs : FileSys) (root : String) :
    (fs.walk root = [] → get_contract_files fs root = []) ∧
    (fs.isDir root = false → measureMain E gedO fs root = none) ∧
    ((∀ e ∈ fs.walk root, ∀ f ∈ e.2, f.endsWith solExt = false) →
      get_contract_files fs root = []) := by
  refine ⟨?_, ?_, ?_⟩
  · intro h
    unfold get_contract_files
    rw [h]
    rfl
  · intro h
    unfold measureMain
    simp [h]
  · intro h
    unfold get_contract_files
    apply List.flatMap_eq_nil_iff.2
    intro e he
    rw [List.filter_eq_nil_iff.2 (fun f hf => by simp [h e he f hf])]
    rfl

theorem claimC8_witness :
    get_contract_files (FileSys.mk (fun _ => false) (fun _ => [])) fileB = [] ∧
      measureMain extractorOK nxGed (FileSys.mk (fun _ => false) (fun _ => []))
        fileB = none :=
  ⟨(claimC8_amended extractorOK nxGed (FileSys.mk (fun _ => false) (fun _ => []))
      fileB).1 rfl,
    (claimC8_amended extractorOK nxGed (FileSys.mk (fun _ => false) (fun _ => []))
      fileB).2.1 rfl⟩

/-- C9 (counterexample): extraction is not cached: over three files the loop
invokes AST extraction six times (twice per pair), not three times as the
claim states. -/
theorem claimC9_counterexample :
    (compare_contracts_traced extractorOK nxGed [fileA, fileB, fileC]).2.1 ≠
      ([fileA, fileB, fileC] : List String).length := by
  rw [(compare_contracts_traced_counts extractorOK nxGed [fileA, fileB, fileC]).1]
  decide

/-- C9 (amended): extraction is recomputed inside the pairwise loop: each of
AST and CFG extraction runs `2·C(n,2) = n(n-1)` times over `n` files — twice
per pair, never cached. -/
theorem claimC9_amended (E : Extractor) (gedO : Graph → Graph → Option Nat)
    (files : List String) :
    (compare_contracts_traced E gedO files).2.1 =
      files.length * (files.length - 1) ∧
    (compare_contracts_traced E gedO files).2.2 =
      files.length * (files.length - 1) := by
  obtain ⟨h1, h2⟩ := compare_contracts_traced_counts E gedO files
  rw [h1, h2, length_allPairs, Nat.choose_two_right]
  have heven : (files.length * (files.length - 1)) % 2 = 0 :=
    Nat.even_iff.1 (Nat.even_mul_pred_self _)
  omega

/-- C10: in the heatmap matrix every cell starts at `1.0` and only result
pairs are overwritten (symmetrically), so the diagonal is exactly `1.0`, the
matrix is symmetric, and a pair excluded because an AST failed to extract
keeps the value `1.0` — indistinguishable from a perfect match. -/
theorem claimC10 (E : Extractor) (gedO : Graph → Graph → Option Nat)
    (contracts : List String) (hnd : contracts.Nodup) :
    (∀ i, i < contracts.length →
      cell (similarity_matrix contracts (compare_contracts E gedO contracts)) i i = 1) ∧
    (∀ a b,
      cell (similarity_matrix contracts (compare_contracts E gedO contracts)) a b =
        cell (similarity_matrix contracts (compare_contracts E gedO contracts)) b a) ∧
    (∀ p q, p < contracts.length → q < contracts.length →
      pyTruthy (extract_ast E (contracts.getD p (""))) = false →
      cell (similarity_matrix contracts (compare_contracts E gedO contracts)) p q = 1 ∧
      cell (similarity_matrix contracts (compare_contracts E gedO contracts)) q p = 1) :=
  similarity_matrix_props E gedO contracts hnd

theorem claimC10_witness :
    ([fileA, fileB] : List String).Nodup ∧
      pyTruthy (extract_ast extractorFalsy (([fileA, fileB] : List String).getD 0 (""))) =
        false ∧
      cell (similarity_matrix [fileA, fileB]
        (compare_contracts extractorFalsy nxGed [fileA, fileB])) 0 0 = 1 ∧
      cell (similarity_matrix [fileA, fileB]
        (compare_contracts extractorFalsy nxGed [fileA, fileB])) 0 1 =
        cell (similarity_matrix [fileA, fileB]
          (compare_contracts extractorFalsy nxGed [fileA, fileB])) 1 0 ∧
      cell (similarity_matrix [fileA, fileB]
        (compare_contracts extractorFalsy nxGed [fileA, fileB])) 0 1 = 1 :=
  ⟨by decide, by decide,
    (claimC10 extractorFalsy nxGed [fileA, fileB] (by decide)).1 0 (by decide),
    (claimC10 extractorFalsy nxGed [fileA, fileB] (by decide)).2.1 0 1,
    ((claimC10 extractorFalsy nxGed [fileA, fileB] (by decide)).2.2 0 1
      (by decide) (by decide) (by decide)).1⟩

end SolidityComparator
